import Mathlib

/-!
Verification of the detrak repository: a shallow embedding of its three
Python modules (`precompute_scores.py`, `evaluate_sequence.py`,
`enumerate_layouts.py`) together with theorems about the embedded code.

Conventions of the embedding:
* Python lists become Lean `List`s; `None` becomes `Option.none`.
* Dictionary lookup, which can raise `KeyError`, becomes an `Option`-valued
  function; an exception propagating through `sum(...)` becomes `none`
  propagating through `optionSum`.
* The grid-side constant `N` is kept as an explicit parameter (the sources
  pin it to 5 for the enumerator and 3 for the evaluator).
-/

/-! ## precompute_scores.py -/

/-- The fixed run-length score table `SCORE_GRID = {1:0, 2:2, 3:3, 4:8, 5:10}`.
A key outside `1..5` raises `KeyError` in Python, hence `none` here. -/
def SCORE_GRID : Nat → Option Nat
  | 1 => some 0
  | 2 => some 2
  | 3 => some 3
  | 4 => some 8
  | 5 => some 10
  | _ => none

/-- Helper for `groupby`: the current group has symbol `c` and length `n`;
consume the rest of the sequence, closing the group whenever the next
character differs.  This mirrors the streaming behaviour of
`itertools.groupby`, which emits maximal runs of adjacent equal symbols. -/
def groupbyAux (c : Char) (n : Nat) : List Char → List (Char × Nat)
  | [] => [(c, n)]
  | d :: rest => if d = c then groupbyAux c (n + 1) rest else (c, n) :: groupbyAux d 1 rest

/-- `itertools.groupby(sequence)` restricted to what `compute_score` consumes:
the list of (symbol, run length) pairs of the maximal adjacent runs. -/
def groupby : List Char → List (Char × Nat)
  | [] => []
  | c :: rest => groupbyAux c 1 rest

/-- The generator-sum inside `compute_score`: for each group whose symbol is
not `'_'`, look its length up in `SCORE_GRID` and add; a failed lookup is a
`KeyError`, i.e. `none`.  Groups of `'_'` are skipped before any lookup. -/
def sumScores : List (Char × Nat) → Option Nat
  | [] => some 0
  | g :: gs =>
    if g.1 = '_' then sumScores gs
    else
      match SCORE_GRID g.2, sumScores gs with
      | some v, some t => some (v + t)
      | _, _ => none

/-- `compute_score(sequence)` from precompute_scores.py. -/
def compute_score (s : List Char) : Option Nat :=
  sumScores (groupby s)

/-! Spec-side description of a decomposition into maximal runs: the runs
concatenate back to the sequence, every run is nonempty, and adjacent runs
carry different symbols. -/

/-- Concatenation of a list of (symbol, length) runs back into a sequence. -/
def runJoin (gs : List (Char × Nat)) : List Char :=
  (gs.map fun p => List.replicate p.2 p.1).flatten

/-- Adjacent runs carry different symbols. -/
def chainNeq : List (Char × Nat) → Bool
  | [] => true
  | [_] => true
  | p :: q :: gs => (p.1 != q.1) && chainNeq (q :: gs)

/-- `gs` is the decomposition of `s` into maximal runs of identical adjacent
symbols: it joins back to `s`, has no empty run, and no two adjacent runs
share a symbol. -/
def isRunDecomp (gs : List (Char × Nat)) (s : List Char) : Bool :=
  (s == runJoin gs) && gs.all (fun p => decide (0 < p.2)) && chainNeq gs

lemma groupbyAux_replicate (c : Char) (rest : List Char) :
    ∀ m k, groupbyAux c k (List.replicate m c ++ rest) = groupbyAux c (k + m) rest := by
  intro m
  induction m with
  | zero => intro k; simp
  | succ m ih =>
    intro k
    rw [List.replicate_succ, List.cons_append, groupbyAux, if_pos rfl, ih]
    congr 1
    omega

lemma groupbyAux_ne (c d : Char) (k : Nat) (rest : List Char) (h : d ≠ c) :
    groupbyAux c k (d :: rest) = (c, k) :: groupbyAux d 1 rest := by
  simp [groupbyAux, h]

/-- `groupby` computes the unique maximal-run decomposition. -/
lemma groupby_of_runDecomp :
    ∀ (gs : List (Char × Nat)) (s : List Char), isRunDecomp gs s = true → groupby s = gs := by
  intro gs
  induction gs with
  | nil =>
    intro s h
    simp only [isRunDecomp, runJoin, List.map_nil, List.flatten_nil, Bool.and_eq_true,
      beq_iff_eq] at h
    rw [h.1.1]
    rfl
  | cons g gs ih =>
    intro s h
    obtain ⟨c, n⟩ := g
    simp only [isRunDecomp, Bool.and_eq_true, beq_iff_eq, List.all_cons, decide_eq_true_eq,
      List.all_eq_true] at h
    obtain ⟨⟨hs, hn, hall⟩, hchain⟩ := h
    obtain ⟨m, rfl⟩ : ∃ m, n = m + 1 := ⟨n - 1, by omega⟩
    have hs' : s = List.replicate (m + 1) c ++ runJoin gs := by
      rw [hs]; simp [runJoin]
    rw [hs', List.replicate_succ, List.cons_append]
    simp only [groupby]
    rw [groupbyAux_replicate]
    cases gs with
    | nil =>
      simp [runJoin, groupbyAux, Nat.add_comm]
    | cons g' gs' =>
      obtain ⟨c', n'⟩ := g'
      have hn' : 0 < n' := by
        have := hall (c', n') (by simp)
        simpa using this
      obtain ⟨m', rfl⟩ : ∃ m', n' = m' + 1 := ⟨n' - 1, by omega⟩
      have hne : c' ≠ c := by
        simp only [chainNeq, Bool.and_eq_true, bne_iff_ne, ne_eq] at hchain
        exact fun hcc => hchain.1 hcc.symm
      have hjoin : runJoin ((c', m' + 1) :: gs') =
          c' :: (List.replicate m' c' ++ runJoin gs') := by
        simp [runJoin, List.replicate_succ]
      rw [hjoin, groupbyAux_ne _ _ _ _ hne]
      have htail : groupby (c' :: (List.replicate m' c' ++ runJoin gs')) = (c', m' + 1) :: gs' := by
    /- reuse the induction hypothesis on the tail decomposition -/
        apply ih
        simp only [isRunDecomp, Bool.and_eq_true, beq_iff_eq, List.all_cons,
          decide_eq_true_eq, List.all_eq_true]
        refine ⟨⟨?_, by omega, fun p hp => by simpa using hall p (by simp [hp])⟩, ?_⟩
        · simp [runJoin, List.replicate_succ]
        · simp only [chainNeq, Bool.and_eq_true] at hchain ⊢
          exact hchain.2
      simp only [groupby] at htail
      rw [htail]
      congr 2
      omega

lemma getD_mem_of_lt (l : List Char) (i : Nat) (d : Char) (h : i < l.length) :
    l.getD i d ∈ l := by
  rw [List.getD_eq_getElem l d h]
  exact List.getElem_mem h

lemma groupbyAux_mem_bounds :
    ∀ (rest : List Char) (c : Char) (k : Nat), 1 ≤ k →
      ∀ p ∈ groupbyAux c k rest, 1 ≤ p.2 ∧ p.2 ≤ k + rest.length := by
  intro rest
  induction rest with
  | nil =>
    intro c k hk p hp
    simp only [groupbyAux, List.mem_singleton] at hp
    subst hp
    exact ⟨hk, by simp⟩
  | cons d rest ih =>
    intro c k hk p hp
    by_cases hdc : d = c
    · rw [groupbyAux, if_pos hdc] at hp
      have := ih c (k + 1) (by omega) p hp
      refine ⟨this.1, ?_⟩
      have := this.2
      simp only [List.length_cons]
      omega
    · rw [groupbyAux, if_neg hdc] at hp
      rcases List.mem_cons.mp hp with h | h
      · subst h
        exact ⟨hk, by simp⟩
      · have := ih d 1 (by omega) p h
        refine ⟨this.1, ?_⟩
        have := this.2
        simp only [List.length_cons]
        omega

lemma groupby_mem_bounds (s : List Char) (p : Char × Nat) (hp : p ∈ groupby s) :
    1 ≤ p.2 ∧ p.2 ≤ s.length := by
  cases s with
  | nil => simp [groupby] at hp
  | cons c rest =>
    have := groupbyAux_mem_bounds rest c 1 (by omega) p hp
    refine ⟨this.1, ?_⟩
    have := this.2
    simp only [List.length_cons]
    omega

lemma SCORE_GRID_isSome (n : Nat) (h1 : 1 ≤ n) (h5 : n ≤ 5) : ∃ v, SCORE_GRID n = some v := by
  interval_cases n <;> exact ⟨_, rfl⟩

lemma sumScores_isSome (gs : List (Char × Nat))
    (h : ∀ p ∈ gs, p.1 = '_' ∨ ∃ v, SCORE_GRID p.2 = some v) :
    ∃ t, sumScores gs = some t := by
  induction gs with
  | nil => exact ⟨0, rfl⟩
  | cons p gs ih =>
    obtain ⟨t, ht⟩ := ih fun q hq => h q (by simp [hq])
    by_cases hp : p.1 = '_'
    · exact ⟨t, by simp [sumScores, hp, ht]⟩
    · obtain ⟨v, hv⟩ := (h p (by simp)).resolve_left hp
      exact ⟨v + t, by simp [sumScores, hp, hv, ht]⟩

lemma compute_score_isSome (s : List Char) (h : s.length ≤ 5) :
    ∃ t, compute_score s = some t := by
  apply sumScores_isSome
  intro p hp
  have hb := groupby_mem_bounds s p hp
  exact Or.inr (SCORE_GRID_isSome p.2 hb.1 (le_trans hb.2 h))

/-- C1: `compute_score` implements run-length scoring: for every sequence
and every decomposition of it into maximal runs of identical adjacent
symbols, the result is `SCORE_GRID` applied to each non-blank run's length
and summed, runs of `'_'` contributing nothing; in particular "AAAAA"
scores 10, "ABABA" scores 0 and "AABAA" scores 4. -/
theorem compute_score_runs :
    (∀ (s : List Char) (gs : List (Char × Nat)),
        isRunDecomp gs s = true → compute_score s = sumScores gs)
    ∧ compute_score "AAAAA".toList = some 10
    ∧ compute_score "ABABA".toList = some 0
    ∧ compute_score "AABAA".toList = some 4 := by
  refine ⟨fun s gs h => ?_, by decide, by decide, by decide⟩
  unfold compute_score
  rw [groupby_of_runDecomp gs s h]

theorem compute_score_runs_witness :
    isRunDecomp [('A', 2), ('B', 1), ('A', 2)] "AABAA".toList = true ∧
      compute_score "AABAA".toList = sumScores [('A', 2), ('B', 1), ('A', 2)] :=
  ⟨by decide, compute_score_runs.1 _ _ (by decide)⟩

/-! ## evaluate_sequence.py -/

/-- `SYMBOLS = "ABCDE"`. -/
def SYMBOLS : List Char := ['A', 'B', 'C', 'D', 'E']

/-- `rows(grid)`: the `N` row strings of a symbol grid, read at `i * N + j`. -/
def rows (N : Nat) (g : List Char) : List (List Char) :=
  (List.range N).map fun i => (List.range N).map fun j => g.getD (i * N + j) ' '

/-- `columns(grid)`: the `N` column strings, read at `i + j * N`. -/
def columns (N : Nat) (g : List Char) : List (List Char) :=
  (List.range N).map fun i => (List.range N).map fun j => g.getD (i + j * N) ' '

/-- `diagonal(grid)`: the line read at the indices `(N - 1) * (i + 1)`. -/
def diagonal (N : Nat) (g : List Char) : List Char :=
  (List.range N).map fun i => g.getD ((N - 1) * (i + 1)) ' '

/-- The per-line expression `scores[line] or -5`: a missing key raises
`KeyError` (here `none`); a present value that is falsy (the integer 0)
is replaced by `-5`; any other value is used as is. -/
def lineScore (table : List Char → Option Int) (line : List Char) : Option Int :=
  match table line with
  | none => none
  | some v => some (if v = 0 then -5 else v)

/-- Python's `sum` over a generator of fallible lookups: an exception in
any element aborts the whole sum, hence `none` absorbs. -/
def optionSum : List (Option Int) → Option Int
  | [] => some 0
  | x :: xs =>
    match x with
    | none => none
    | some a =>
      match optionSum xs with
      | none => none
      | some b => some (a + b)

/-- The evaluator's `score`: sum the line scores of
`rows(grid) + columns(grid) + [diagonal(grid), diagonal(grid)]`. -/
def score (N : Nat) (table : List Char → Option Int) (g : List Char) : Option Int :=
  optionSum (((rows N g ++ columns N g) ++ [diagonal N g, diagonal N g]).map (lineScore table))

/-- Comparison variant following the spec's words with the diagonal counted
once instead of twice. -/
def scoreSingleDiagonal (N : Nat) (table : List Char → Option Int) (g : List Char) : Option Int :=
  optionSum (((rows N g ++ columns N g) ++ [diagonal N g]).map (lineScore table))

/-- The contents of `scores_3.json`, produced by precompute_scores.py for
`N = 3`: every length-3 word over `SYMBOLS + '_'` is mapped to its
`compute_score`; every other key is absent. -/
def scores (line : List Char) : Option Int :=
  if line.length = 3 ∧ ∀ c ∈ line, c ∈ SYMBOLS ∨ c = '_' then
    (compute_score line).map fun n => (n : Int)
  else none

lemma optionSum_append (xs ys : List (Option Int)) (a b : Int)
    (hx : optionSum xs = some a) (hy : optionSum ys = some b) :
    optionSum (xs ++ ys) = some (a + b) := by
  induction xs generalizing a with
  | nil =>
    simp only [optionSum, Option.some_inj] at hx
    subst hx
    rw [List.nil_append, hy, Int.zero_add]
  | cons x xs ih =>
    cases x with
    | none => simp [optionSum] at hx
    | some v =>
      cases hxs : optionSum xs with
      | none => simp [optionSum, hxs] at hx
      | some t =>
        simp only [optionSum, hxs, Option.some_inj] at hx
        subst hx
        simp only [List.cons_append, optionSum, List.append_eq, ih t hxs]
        rw [Int.add_assoc]

lemma optionSum_isSome (l : List (Option Int)) (h : ∀ x ∈ l, ∃ v, x = some v) :
    ∃ s, optionSum l = some s := by
  induction l with
  | nil => exact ⟨0, rfl⟩
  | cons x xs ih =>
    obtain ⟨v, rfl⟩ := h x (by simp)
    obtain ⟨t, ht⟩ := ih fun y hy => h y (by simp [hy])
    exact ⟨v + t, by simp [optionSum, ht]⟩

/-- C2: the evaluator's total is exactly the row scores plus the column
scores plus twice the diagonal score, the diagonal line being looked up
twice; using the diagonal only once changes the total by exactly one
diagonal score. -/
theorem score_diagonal_twice (N : Nat) (table : List Char → Option Int) (g : List Char)
    (base d : Int)
    (hbase : optionSum ((rows N g ++ columns N g).map (lineScore table)) = some base)
    (hd : lineScore table (diagonal N g) = some d) :
    score N table g = some (base + 2 * d) ∧
      scoreSingleDiagonal N table g = some (base + d) := by
  constructor
  · unfold score
    rw [List.map_append]
    have h2 : optionSum ([diagonal N g, diagonal N g].map (lineScore table))
        = some (d + (d + 0)) := by
      simp [optionSum, hd]
    have h3 := optionSum_append _ _ _ _ hbase h2
    rw [h3]
    congr 1
    ring
  · unfold scoreSingleDiagonal
    rw [List.map_append]
    have h2 : optionSum ([diagonal N g].map (lineScore table)) = some (d + 0) := by
      simp [optionSum, hd]
    have h3 := optionSum_append _ _ _ _ hbase h2
    rw [h3]
    congr 1
    ring

theorem score_diagonal_twice_witness :
    (optionSum ((rows 3 "ABCABCABC".toList ++ columns 3 "ABCABCABC".toList).map
        (lineScore scores)) = some (-6)
      ∧ lineScore scores (diagonal 3 "ABCABCABC".toList) = some (-5))
    ∧ (score 3 scores "ABCABCABC".toList = some (-6 + 2 * -5)
      ∧ scoreSingleDiagonal 3 scores "ABCABCABC".toList = some (-6 + -5)) :=
  ⟨⟨by decide, by decide⟩,
    score_diagonal_twice 3 scores "ABCABCABC".toList (-6) (-5) (by decide) (by decide)⟩

/-- C3 counterexample: with a table holding no entry for the line, the
lookup `scores[line] or -5` is an error (`KeyError`, modelled `none`), not
the claimed silent `-5` penalty. -/
theorem lineScore_absent_cex :
    lineScore (fun _ => none) "AAA".toList = none ∧
      lineScore (fun _ => none) "AAA".toList ≠ some (-5) :=
  ⟨rfl, by decide⟩

/-- C3 (amended): a present score of exactly zero (a falsy value) is
substituted by the fixed `-5` penalty and any other present value is kept,
but an absent score-table entry raises `KeyError` (modelled as `none`)
rather than yielding `-5`; in the program's actual flow absence never
occurs, because the precomputed table `scores` covers every line of every
well-formed symbol grid, so the whole score is defined. -/
theorem lineScore_semantics :
    (∀ (table : List Char → Option Int) (line : List Char) (v : Int),
        table line = some v → lineScore table line = some (if v = 0 then -5 else v))
    ∧ (∀ (table : List Char → Option Int) (line : List Char),
        table line = none → lineScore table line = none)
    ∧ (∀ g : List Char, g.length = 9 → (∀ c ∈ g, c ∈ SYMBOLS ∨ c = '_') →
        ∃ s, score 3 scores g = some s) := by
  refine ⟨fun table line v hv => by simp [lineScore, hv],
    fun table line hv => by simp [lineScore, hv],
    fun g hlen hc => ?_⟩
  unfold score
  apply optionSum_isSome
  intro x hx
  simp only [List.mem_map] at hx
  obtain ⟨line, hline, rfl⟩ := hx
  have hgood : line.length = 3 ∧ ∀ c ∈ line, c ∈ SYMBOLS ∨ c = '_' := by
    have hmk : ∀ f : Nat → Nat, (∀ i, i < 3 → f i < 9) →
        ((List.range 3).map fun i => g.getD (f i) ' ').length = 3 ∧
          ∀ c ∈ (List.range 3).map fun i => g.getD (f i) ' ', c ∈ SYMBOLS ∨ c = '_' := by
      intro f hf
      refine ⟨by simp, fun c hcm => ?_⟩
      simp only [List.mem_map, List.mem_range] at hcm
      obtain ⟨i, hi, rfl⟩ := hcm
      exact hc _ (getD_mem_of_lt g (f i) ' ' (by rw [hlen]; exact hf i hi))
    simp only [List.mem_append, rows, columns, List.mem_map, List.mem_range,
      List.mem_cons, List.mem_singleton, List.not_mem_nil, or_false] at hline
    rcases hline with (⟨i, hi, rfl⟩ | ⟨i, hi, rfl⟩) | (rfl | rfl)
    · exact hmk (fun j => i * 3 + j) (fun j hj => by show i * 3 + j < 9; omega)
    · exact hmk (fun j => i + j * 3) (fun j hj => by show i + j * 3 < 9; omega)
    · exact hmk (fun i => (3 - 1) * (i + 1)) (fun i hi => by show (3 - 1) * (i + 1) < 9; omega)
    · exact hmk (fun i => (3 - 1) * (i + 1)) (fun i hi => by show (3 - 1) * (i + 1) < 9; omega)
  obtain ⟨t, ht⟩ := compute_score_isSome line (by omega)
  have hv : scores line = some (t : Int) := by
    unfold scores
    rw [if_pos hgood, ht]
    rfl
  exact ⟨if (t : Int) = 0 then -5 else (t : Int), by simp [lineScore, hv]⟩

theorem lineScore_semantics_witness :
    scores "AAA".toList = some 3 ∧
      lineScore scores "AAA".toList = some (if (3 : Int) = 0 then -5 else 3) :=
  ⟨by decide, lineScore_semantics.1 scores "AAA".toList 3 (by decide)⟩

/-! ## enumerate_layouts.py -/

/-- A grid's linear cell store, `Grid.layout`: `N_TILES` optional labels. -/
abbrev GridL := List (Option Nat)

/-- `N_TURNS = (N_TILES - 1) // 2` where `N_TILES = N ** 2`. -/
def N_TURNS (N : Nat) : Nat := (N ^ 2 - 1) / 2

/-- `Grid(0).layout`: the starting symbol 0 followed by `N_TILES - 1`
empty cells. -/
def initGrid (N : Nat) : GridL := some 0 :: List.replicate (N ^ 2 - 1) none

/-- `Grid.is_free(i, j)`: the cell at linear index `N * i + j` holds `None`. -/
def is_free (N : Nat) (g : GridL) (i j : Nat) : Bool := g[N * i + j]? == some none

/-- The direction offsets `[(-1, 0), (1, 0), (0, -1), (0, 1)]`. -/
def dirs : List (Int × Int) := [(-1, 0), (1, 0), (0, -1), (0, 1)]

/-- `itertools.product(range(N), repeat=2)`: the cells in row-major order. -/
def cells (N : Nat) : List (Nat × Nat) :=
  (List.range N).flatMap fun i => (List.range N).map fun j => (i, j)

/-- The guard of the inner loop: `0 <= i + w < N and 0 <= j + h < N and
grid.is_free(i + w, j + h)`. -/
def okMove (N : Nat) (g : GridL) (i j : Nat) (w h : Int) : Bool :=
  decide (0 ≤ (i : Int) + w) && decide ((i : Int) + w < (N : Int)) &&
    decide (0 ≤ (j : Int) + h) && decide ((j : Int) + h < (N : Int)) &&
    is_free N g ((i : Int) + w).toNat ((j : Int) + h).toNat

/-- All placements `((i, j), (w, h))` attempted by one level of `enum`, in
iteration order: free cells in row-major order, cells with `i > j` skipped
at turn 0, each paired with the in-bounds free directions in `dirs` order.
`enum`'s `found` flag is true exactly when this list is nonempty. -/
def placements (N : Nat) (g : GridL) (turn : Nat) : List ((Nat × Nat) × (Int × Int)) :=
  (cells N).flatMap fun c =>
    if is_free N g c.1 c.2 = false then []
    else if turn = 0 ∧ c.2 < c.1 then []
    else dirs.filterMap fun d => if okMove N g c.1 c.2 d.1 d.2 then some (c, d) else none

/-- `new_grid = copy.copy(grid); new_grid[i, j] = 2 * turn + 1;
new_grid[i + w, j + h] = 2 * turn + 2`. -/
def place (N : Nat) (g : GridL) (turn i j : Nat) (w h : Int) : GridL :=
  (g.set (N * i + j) (some (2 * turn + 1))).set
    (N * ((i : Int) + w).toNat + ((j : Int) + h).toNat) (some (2 * turn + 2))

/-- The body of `enum`, with explicit fuel (the recursion increases `turn`
by 1 per call and the entry point calls it with `turn ≤ N_TURNS`, so
`N_TURNS - turn` bounds the depth): when the budget is reached the grid is
recorded; otherwise every placement branches into a recursive call, and if
no placement was found the grid is recorded as stuck. -/
def enumFuel (N : Nat) : Nat → GridL → Nat → List GridL
  | 0, g, turn => if turn = N_TURNS N then [g] else []
  | fuel' + 1, g, turn =>
    if turn = N_TURNS N then [g]
    else
      if placements N g turn = [] then [g]
      else (placements N g turn).flatMap fun pd =>
        enumFuel N fuel' (place N g turn pd.1.1 pd.1.2 pd.2.1 pd.2.2) (turn + 1)

/-- `enum(grid, turn, layouts, pbar)` as a function: the list of layouts
recorded below this call, in recording order. -/
def enum (N : Nat) (g : GridL) (turn : Nat) : List GridL :=
  enumFuel N (N_TURNS N - turn) g turn

lemma enumFuel_budget {N : Nat} {fuel : Nat} {g : GridL} {turn : Nat}
    (h : turn = N_TURNS N) : enumFuel N fuel g turn = [g] := by
  cases fuel with
  | zero => rw [enumFuel, if_pos h]
  | succ fuel' => rw [enumFuel, if_pos h]

lemma enumFuel_zero {N : Nat} {g : GridL} {turn : Nat}
    (h : turn ≠ N_TURNS N) : enumFuel N 0 g turn = [] := by
  rw [enumFuel, if_neg h]

lemma enumFuel_stuck {N : Nat} {fuel : Nat} {g : GridL} {turn : Nat}
    (h : turn ≠ N_TURNS N) (hp : placements N g turn = []) :
    enumFuel N (fuel + 1) g turn = [g] := by
  rw [enumFuel, if_neg h, if_pos hp]

lemma enumFuel_step {N : Nat} {fuel : Nat} {g : GridL} {turn : Nat}
    (h : turn ≠ N_TURNS N) (hp : placements N g turn ≠ []) :
    enumFuel N (fuel + 1) g turn =
      (placements N g turn).flatMap fun pd =>
        enumFuel N fuel (place N g turn pd.1.1 pd.1.2 pd.2.1 pd.2.2) (turn + 1) := by
  rw [enumFuel, if_neg h, if_neg hp]

/-- Case analysis on how a layout can be a member of `enumFuel`. -/
lemma mem_enumFuel {N : Nat} : ∀ {fuel : Nat} {g : GridL} {turn : Nat} {layout : GridL},
    layout ∈ enumFuel N fuel g turn →
    (turn = N_TURNS N ∧ layout = g) ∨
    (turn ≠ N_TURNS N ∧ ∃ fuel', fuel = fuel' + 1 ∧
      ((placements N g turn = [] ∧ layout = g) ∨
       ∃ pd ∈ placements N g turn,
         layout ∈ enumFuel N fuel' (place N g turn pd.1.1 pd.1.2 pd.2.1 pd.2.2) (turn + 1))) := by
  intro fuel g turn layout hmem
  by_cases hT : turn = N_TURNS N
  · rw [enumFuel_budget hT] at hmem
    exact Or.inl ⟨hT, List.mem_singleton.mp hmem⟩
  · refine Or.inr ⟨hT, ?_⟩
    cases fuel with
    | zero => rw [enumFuel_zero hT] at hmem; cases hmem
    | succ fuel' =>
      refine ⟨fuel', rfl, ?_⟩
      by_cases hp : placements N g turn = []
      · rw [enumFuel_stuck hT hp] at hmem
        exact Or.inl ⟨hp, List.mem_singleton.mp hmem⟩
      · rw [enumFuel_step hT hp] at hmem
        exact Or.inr (List.mem_flatMap.mp hmem)

lemma mem_cells {N i j : Nat} : (i, j) ∈ cells N ↔ i < N ∧ j < N := by
  simp only [cells, List.mem_flatMap, List.mem_map, List.mem_range]
  constructor
  · rintro ⟨a, ha, b, hb, hab⟩
    cases hab
    exact ⟨ha, hb⟩
  · rintro ⟨hi, hj⟩
    exact ⟨i, hi, j, hj, rfl⟩

/-- Membership in the placement list, unfolded to the source's guards. -/
lemma mem_placements {N : Nat} {g : GridL} {turn i j : Nat} {w h : Int} :
    ((i, j), (w, h)) ∈ placements N g turn ↔
      i < N ∧ j < N ∧ is_free N g i j = true ∧ ¬(turn = 0 ∧ j < i) ∧
        (w, h) ∈ dirs ∧ okMove N g i j w h = true := by
  simp only [placements, List.mem_flatMap, List.mem_ite_nil_left, List.mem_filterMap,
    Option.ite_none_right_eq_some, Option.some_inj]
  constructor
  · rintro ⟨c, hc, hfree, hskip, d, hd, hok, hcd⟩
    cases hcd
    rw [mem_cells] at hc
    refine ⟨hc.1, hc.2, ?_, hskip, hd, hok⟩
    revert hfree
    cases is_free N g i j <;> simp
  · rintro ⟨hi, hj, hfree, hskip, hd, hok⟩
    exact ⟨(i, j), mem_cells.mpr ⟨hi, hj⟩, by simp [hfree], hskip, (w, h), hd, hok, rfl⟩

lemma okMove_iff {N : Nat} {g : GridL} {i j : Nat} {w h : Int} :
    okMove N g i j w h = true ↔
      0 ≤ (i : Int) + w ∧ (i : Int) + w < N ∧ 0 ≤ (j : Int) + h ∧ (j : Int) + h < N ∧
        is_free N g ((i : Int) + w).toNat ((j : Int) + h).toNat = true := by
  simp [okMove, Bool.and_eq_true, decide_eq_true_eq, and_assoc]

lemma is_free_iff {N : Nat} {g : GridL} {i j : Nat} :
    is_free N g i j = true ↔ g[N * i + j]? = some none := by
  simp [is_free]

lemma lt_length_of_getq {l : GridL} {p : Nat} {x : Option Nat} (h : l[p]? = some x) :
    p < l.length := by
  by_contra hc
  rw [List.getElem?_eq_none (by omega)] at h
  cases h

lemma encode_lt {N i j : Nat} (hi : i < N) (hj : j < N) : N * i + j < N ^ 2 := by
  have h1 : N * (i + 1) = N * i + N := by ring
  have h2 : N * (i + 1) ≤ N * N := Nat.mul_le_mul (Nat.le_refl N) hi
  have h3 : N ^ 2 = N * N := by ring
  omega

lemma encode_div (N i j : Nat) (hj : j < N) : (N * i + j) / N = i := by
  rw [Nat.mul_add_div (by omega : 0 < N), Nat.div_eq_of_lt hj]
  omega

lemma encode_mod (N i j : Nat) (hj : j < N) : (N * i + j) % N = j := by
  rw [Nat.mul_add_mod, Nat.mod_eq_of_lt hj]

lemma encode_inj {N i j a b : Nat} (hj : j < N) (hb : b < N)
    (h : N * i + j = N * a + b) : i = a ∧ j = b := by
  constructor
  · rw [← encode_div N i j hj, h, encode_div N a b hb]
  · rw [← encode_mod N i j hj, h, encode_mod N a b hb]

/-- The number of occupied cells. -/
def countSome (g : GridL) : Nat := (g.filter fun o => o.isSome).length

/-- Manhattan distance between two linear cell indices of an `N`-wide grid. -/
def manhattan (N p q : Nat) : Nat :=
  (((p / N : Nat) : Int) - ((q / N : Nat) : Int)).natAbs +
    (((p % N : Nat) : Int) - ((q % N : Nat) : Int)).natAbs

/-- Cells carrying the label pair of any turn `t` are at Manhattan
distance 1. -/
def PairsAdj (N : Nat) (g : GridL) : Prop :=
  ∀ (t p q : Nat), g[p]? = some (some (2 * t + 1)) → g[q]? = some (some (2 * t + 2)) →
    manhattan N p q = 1

/-- Every label present on the grid is at most `m`. -/
def LabelsLE (g : GridL) (m : Nat) : Prop := ∀ (p v : Nat), g[p]? = some (some v) → v ≤ m

/-- No free cell has an in-bounds free cardinal neighbour: the stuck
(starvation) condition of the search. -/
def Starved (N : Nat) (g : GridL) : Prop :=
  ∀ i j w h, i < N → j < N → (w, h) ∈ dirs → is_free N g i j = true →
    okMove N g i j w h = false

lemma countSome_set {g : GridL} {p : Nat} (v : Nat) (h : g[p]? = some none) :
    countSome (g.set p (some v)) = countSome g + 1 := by
  induction g generalizing p with
  | nil => simp at h
  | cons x xs ih =>
    cases p with
    | zero =>
      simp only [List.getElem?_cons_zero, Option.some_inj] at h
      subst h
      simp [countSome, List.set, List.filter]
    | succ p =>
      simp only [List.getElem?_cons_succ] at h
      have := ih h
      simp only [List.set, countSome, List.filter] at this ⊢
      cases hx : x.isSome <;> simp [hx] at this ⊢ <;> omega

lemma dirs_cases {w h : Int} (hd : (w, h) ∈ dirs) :
    (w = -1 ∧ h = 0) ∨ (w = 1 ∧ h = 0) ∨ (w = 0 ∧ h = -1) ∨ (w = 0 ∧ h = 1) := by
  simp only [dirs, List.mem_cons, List.not_mem_nil, or_false, Prod.mk.injEq] at hd
  exact hd

lemma place_length {N : Nat} {g : GridL} {turn i j : Nat} {w h : Int} :
    (place N g turn i j w h).length = g.length := by
  rw [place]
  simp [List.length_set]

/-- What one placement does to the grid: the two target indices are
in bounds, distinct and adjacent; the two labels land there; every other
cell is untouched; the occupancy count grows by two. -/
lemma place_spec {N : Nat} {g : GridL} {turn i j : Nat} {w h : Int}
    (hi : i < N) (hj : j < N) (hd : (w, h) ∈ dirs)
    (hfree : is_free N g i j = true) (hok : okMove N g i j w h = true) :
    ((i : Int) + w).toNat < N ∧ ((j : Int) + h).toNat < N ∧
    N * i + j ≠ N * ((i : Int) + w).toNat + ((j : Int) + h).toNat ∧
    (place N g turn i j w h)[N * i + j]? = some (some (2 * turn + 1)) ∧
    (place N g turn i j w h)[N * ((i : Int) + w).toNat + ((j : Int) + h).toNat]? =
      some (some (2 * turn + 2)) ∧
    (∀ p : Nat, p ≠ N * i + j → p ≠ N * ((i : Int) + w).toNat + ((j : Int) + h).toNat →
      (place N g turn i j w h)[p]? = g[p]?) ∧
    manhattan N (N * i + j) (N * ((i : Int) + w).toNat + ((j : Int) + h).toNat) = 1 ∧
    countSome (place N g turn i j w h) = countSome g + 2 := by
  have hok' := hok
  rw [okMove_iff] at hok'
  obtain ⟨hw0, hwN, hh0, hhN, hfree2⟩ := hok'
  have hti : ((((i : Int) + w).toNat : Int)) = (i : Int) + w := Int.toNat_of_nonneg hw0
  have htj : ((((j : Int) + h).toNat : Int)) = (j : Int) + h := Int.toNat_of_nonneg hh0
  have htiN : ((i : Int) + w).toNat < N := by omega
  have htjN : ((j : Int) + h).toNat < N := by omega
  have hidx : N * i + j ≠ N * ((i : Int) + w).toNat + ((j : Int) + h).toNat := by
    intro hcontra
    obtain ⟨h1, h2⟩ := encode_inj hj htjN hcontra
    rcases dirs_cases hd with ⟨rfl, rfl⟩ | ⟨rfl, rfl⟩ | ⟨rfl, rfl⟩ | ⟨rfl, rfl⟩ <;> omega
  rw [is_free_iff] at hfree hfree2
  have hlen1 : N * i + j < g.length := lt_length_of_getq hfree
  have hlen2 : N * ((i : Int) + w).toNat + ((j : Int) + h).toNat < g.length :=
    lt_length_of_getq hfree2
  have hp1 : (place N g turn i j w h)[N * i + j]? = some (some (2 * turn + 1)) := by
    rw [place, List.getElem?_set_ne (Ne.symm hidx), List.getElem?_set_self hlen1]
  have hp2 : (place N g turn i j w h)[N * ((i : Int) + w).toNat + ((j : Int) + h).toNat]? =
      some (some (2 * turn + 2)) := by
    rw [place]
    exact List.getElem?_set_self (by rw [List.length_set]; exact hlen2)
  have hpo : ∀ p : Nat, p ≠ N * i + j →
      p ≠ N * ((i : Int) + w).toNat + ((j : Int) + h).toNat →
      (place N g turn i j w h)[p]? = g[p]? := by
    intro p hne1 hne2
    rw [place, List.getElem?_set_ne (Ne.symm hne2), List.getElem?_set_ne (Ne.symm hne1)]
  have hman : manhattan N (N * i + j)
      (N * ((i : Int) + w).toNat + ((j : Int) + h).toNat) = 1 := by
    rw [manhattan, encode_div N i j hj, encode_mod N i j hj,
      encode_div N ((i : Int) + w).toNat ((j : Int) + h).toNat htjN,
      encode_mod N ((i : Int) + w).toNat ((j : Int) + h).toNat htjN]
    rcases dirs_cases hd with ⟨rfl, rfl⟩ | ⟨rfl, rfl⟩ | ⟨rfl, rfl⟩ | ⟨rfl, rfl⟩ <;> omega
  have hcount : countSome (place N g turn i j w h) = countSome g + 2 := by
    have hmid : (g.set (N * i + j) (some (2 * turn + 1)))[N * ((i : Int) + w).toNat +
        ((j : Int) + h).toNat]? = some none := by
      rw [List.getElem?_set_ne (Ne.symm ?_)]
      · exact hfree2
      · exact fun hc => hidx hc.symm
    rw [place, countSome_set (2 * turn + 2) hmid, countSome_set (2 * turn + 1) hfree]
  exact ⟨htiN, htjN, hidx, hp1, hp2, hpo, hman, hcount⟩

lemma place_preserves_inv {N : Nat} {g : GridL} {turn i j : Nat} {w h : Int}
    (hi : i < N) (hj : j < N) (hd : (w, h) ∈ dirs)
    (hfree : is_free N g i j = true) (hok : okMove N g i j w h = true)
    (hL : LabelsLE g (2 * turn)) (hP : PairsAdj N g) :
    LabelsLE (place N g turn i j w h) (2 * (turn + 1)) ∧
      PairsAdj N (place N g turn i j w h) := by
  obtain ⟨htiN, htjN, hidx, hp1, hp2, hpo, hman, hcount⟩ := place_spec hi hj hd hfree hok
  constructor
  · intro p v hpv
    by_cases h1 : p = N * i + j
    · subst h1
      rw [hp1] at hpv
      simp only [Option.some_inj] at hpv
      omega
    · by_cases h2 : p = N * ((i : Int) + w).toNat + ((j : Int) + h).toNat
      · subst h2
        rw [hp2] at hpv
        simp only [Option.some_inj] at hpv
        omega
      · rw [hpo p h1 h2] at hpv
        exact le_trans (hL p v hpv) (by omega)
  · intro t p q hpv hqv
    by_cases hq1 : q = N * i + j
    · subst hq1
      rw [hp1] at hqv
      simp only [Option.some_inj] at hqv
      omega
    · by_cases hq2 : q = N * ((i : Int) + w).toNat + ((j : Int) + h).toNat
      · subst hq2
        rw [hp2] at hqv
        simp only [Option.some_inj] at hqv
        have ht : t = turn := by omega
        subst ht
        by_cases hp1' : p = N * i + j
        · subst hp1'
          exact hman
        · by_cases hp2' : p = N * ((i : Int) + w).toNat + ((j : Int) + h).toNat
          · subst hp2'
            rw [hp2] at hpv
            simp only [Option.some_inj] at hpv
            omega
          · rw [hpo p hp1' hp2'] at hpv
            have := hL p (2 * t + 1) hpv
            omega
      · rw [hpo q hq1 hq2] at hqv
        have hqle := hL q (2 * t + 2) hqv
        by_cases hp1' : p = N * i + j
        · subst hp1'
          rw [hp1] at hpv
          simp only [Option.some_inj] at hpv
          omega
        · by_cases hp2' : p = N * ((i : Int) + w).toNat + ((j : Int) + h).toNat
          · subst hp2'
            rw [hp2] at hpv
            simp only [Option.some_inj] at hpv
            omega
          · rw [hpo p hp1' hp2'] at hpv
            exact hP t p q hpv hqv

/-- C9's engine: labels already on the grid survive to every recorded
layout (placements only ever write to free cells). -/
lemma enumFuel_persist {N : Nat} : ∀ {fuel : Nat} {g : GridL} {turn : Nat} {layout : GridL},
    layout ∈ enumFuel N fuel g turn →
    ∀ (p v : Nat), g[p]? = some (some v) → layout[p]? = some (some v) := by
  intro fuel
  induction fuel with
  | zero =>
    intro g turn layout hmem p v hg
    rcases mem_enumFuel hmem with ⟨_, rfl⟩ | ⟨_, fuel', hfe, _⟩
    · exact hg
    · cases hfe
  | succ fuel ih =>
    intro g turn layout hmem p v hg
    rcases mem_enumFuel hmem with ⟨_, rfl⟩ | ⟨hT, fuel', hfe, hcase⟩
    · exact hg
    · have hfe' : fuel' = fuel := by omega
      subst hfe'
      rcases hcase with ⟨_, rfl⟩ | ⟨pd, hpd, hmem'⟩
      · exact hg
      · obtain ⟨⟨i, j⟩, w, h⟩ := pd
        rw [mem_placements] at hpd
        obtain ⟨hi, hj, hfree, hskip, hd, hok⟩ := hpd
        obtain ⟨htiN, htjN, hidx, hp1, hp2, hpo, hman, hcount⟩ :=
          place_spec hi hj hd hfree hok
        have h1 : p ≠ N * i + j := by
          intro hc
          subst hc
          rw [is_free_iff] at hfree
          rw [hfree] at hg
          simp at hg
        have h2 : p ≠ N * ((i : Int) + w).toNat + ((j : Int) + h).toNat := by
          intro hc
          subst hc
          rw [okMove_iff] at hok
          have hf2 := hok.2.2.2.2
          rw [is_free_iff] at hf2
          rw [hf2] at hg
          simp at hg
        exact ih hmem' p v (by rw [hpo p h1 h2]; exact hg)

/-- Recorded layouts have the same cell count as the grid they grew from. -/
lemma enumFuel_length {N : Nat} : ∀ {fuel : Nat} {g : GridL} {turn : Nat} {layout : GridL},
    layout ∈ enumFuel N fuel g turn → layout.length = g.length := by
  intro fuel
  induction fuel with
  | zero =>
    intro g turn layout hmem
    rcases mem_enumFuel hmem with ⟨_, rfl⟩ | ⟨_, fuel', hfe, _⟩
    · rfl
    · cases hfe
  | succ fuel ih =>
    intro g turn layout hmem
    rcases mem_enumFuel hmem with ⟨_, rfl⟩ | ⟨hT, fuel', hfe, hcase⟩
    · rfl
    · have hfe' : fuel' = fuel := by omega
      subst hfe'
      rcases hcase with ⟨_, rfl⟩ | ⟨pd, hpd, hmem'⟩
      · rfl
      · rw [ih hmem']
        exact place_length

/-- C4's engine: the label-bound and pair-adjacency invariants propagate
down the recursion to every recorded layout. -/
lemma enumFuel_inv {N : Nat} : ∀ {fuel : Nat} {g : GridL} {turn : Nat} {layout : GridL},
    layout ∈ enumFuel N fuel g turn → turn ≤ N_TURNS N →
    LabelsLE g (2 * turn) → PairsAdj N g →
    LabelsLE layout (2 * N_TURNS N) ∧ PairsAdj N layout := by
  intro fuel
  induction fuel with
  | zero =>
    intro g turn layout hmem hle hL hP
    rcases mem_enumFuel hmem with ⟨_, rfl⟩ | ⟨_, fuel', hfe, _⟩
    · exact ⟨fun p v hpv => le_trans (hL p v hpv) (by omega), hP⟩
    · cases hfe
  | succ fuel ih =>
    intro g turn layout hmem hle hL hP
    rcases mem_enumFuel hmem with ⟨_, rfl⟩ | ⟨hT, fuel', hfe, hcase⟩
    · exact ⟨fun p v hpv => le_trans (hL p v hpv) (by omega), hP⟩
    · have hfe' : fuel' = fuel := by omega
      subst hfe'
      rcases hcase with ⟨_, rfl⟩ | ⟨pd, hpd, hmem'⟩
      · exact ⟨fun p v hpv => le_trans (hL p v hpv) (by omega), hP⟩
      · obtain ⟨⟨i, j⟩, w, h⟩ := pd
        rw [mem_placements] at hpd
        obtain ⟨hi, hj, hfree, hskip, hd, hok⟩ := hpd
        obtain ⟨hL', hP'⟩ := place_preserves_inv hi hj hd hfree hok hL hP
        exact ih hmem' (by omega) hL' hP'

/-- C5 and C10's engine: starting from a grid with `2 * turn + 1` occupied
cells, a recorded layout is either full for the budget, or was recorded
stuck at some turn `k`, with no placement available there. -/
lemma enumFuel_count {N : Nat} : ∀ {fuel : Nat} {g : GridL} {turn : Nat} {layout : GridL},
    layout ∈ enumFuel N fuel g turn → fuel = N_TURNS N - turn → turn ≤ N_TURNS N →
    countSome g = 2 * turn + 1 →
    countSome layout = 2 * N_TURNS N + 1 ∨
      (∃ k, turn ≤ k ∧ k < N_TURNS N ∧ countSome layout = 2 * k + 1 ∧
        placements N layout k = [] ∧ (k = turn → layout = g)) := by
  intro fuel
  induction fuel with
  | zero =>
    intro g turn layout hmem hfuel hle hcnt
    rcases mem_enumFuel hmem with ⟨hT, rfl⟩ | ⟨_, fuel', hfe, _⟩
    · left
      rw [hcnt, hT]
    · cases hfe
  | succ fuel ih =>
    intro g turn layout hmem hfuel hle hcnt
    rcases mem_enumFuel hmem with ⟨hT, rfl⟩ | ⟨hT, fuel', hfe, hcase⟩
    · left
      rw [hcnt, hT]
    · have hlt : turn < N_TURNS N := by omega
      have hfe' : fuel' = fuel := by omega
      subst hfe'
      rcases hcase with ⟨hp, rfl⟩ | ⟨pd, hpd, hmem'⟩
      · exact Or.inr ⟨turn, le_refl turn, hlt, hcnt, hp, fun _ => rfl⟩
      · obtain ⟨⟨i, j⟩, w, h⟩ := pd
        rw [mem_placements] at hpd
        obtain ⟨hi, hj, hfree, hskip, hd, hok⟩ := hpd
        obtain ⟨htiN, htjN, hidx, hp1, hp2, hpo, hman, hcount⟩ :=
          place_spec hi hj hd hfree hok
        have hcnt' : countSome (place N g turn i j w h) = 2 * (turn + 1) + 1 := by
          rw [hcount, hcnt]
          ring
        rcases ih hmem' (by omega) (by omega) hcnt' with hfull | ⟨k, hk1, hk2, hk3, hk4, _⟩
        · exact Or.inl hfull
        · exact Or.inr ⟨k, by omega, hk2, hk3, hk4, fun hkt => absurd hkt (by omega)⟩

/-- C7's engine: with enough fuel the search always records at least one
layout. -/
lemma enumFuel_ne_nil {N : Nat} : ∀ (fuel : Nat) (g : GridL) (turn : Nat),
    fuel = N_TURNS N - turn → turn ≤ N_TURNS N → enumFuel N fuel g turn ≠ [] := by
  intro fuel
  induction fuel with
  | zero =>
    intro g turn hfuel hle
    have hT : turn = N_TURNS N := by omega
    rw [enumFuel_budget hT]
    simp
  | succ fuel ih =>
    intro g turn hfuel hle
    by_cases hT : turn = N_TURNS N
    · rw [enumFuel_budget hT]
      simp
    · by_cases hp : placements N g turn = []
      · rw [enumFuel_stuck hT hp]
        simp
      · rw [enumFuel_step hT hp]
        obtain ⟨pd, hpd⟩ := List.exists_mem_of_ne_nil _ hp
        have hsub := ih (place N g turn pd.1.1 pd.1.2 pd.2.1 pd.2.2) (turn + 1)
          (by omega) (by omega)
        obtain ⟨y, hy⟩ := List.exists_mem_of_ne_nil _ hsub
        exact List.ne_nil_of_mem (List.mem_flatMap.mpr ⟨pd, hpd, hy⟩)

lemma initGrid_get {N : Nat} (hN : 1 ≤ N) (p : Nat) :
    (initGrid N)[p]? =
      if p = 0 then some (some 0) else if p < N ^ 2 then some none else none := by
  have h2 : 0 < N ^ 2 := by positivity
  cases p with
  | zero => simp [initGrid]
  | succ q =>
    simp only [initGrid, List.getElem?_cons_succ]
    rw [List.getElem?_replicate]
    by_cases hq : q < N ^ 2 - 1
    · rw [if_pos hq, if_neg (by omega), if_pos (by omega)]
    · rw [if_neg hq, if_neg (by omega), if_neg (by omega)]

lemma initGrid_length {N : Nat} (hN : 1 ≤ N) : (initGrid N).length = N ^ 2 := by
  have h2 : 0 < N ^ 2 := by positivity
  simp only [initGrid, List.length_cons, List.length_replicate]
  omega

lemma initGrid_count {N : Nat} : countSome (initGrid N) = 1 := by
  simp [initGrid, countSome, List.filter_replicate]

lemma initGrid_LabelsLE {N : Nat} (hN : 1 ≤ N) : LabelsLE (initGrid N) 0 := by
  intro p v hpv
  rw [initGrid_get hN] at hpv
  by_cases h0 : p = 0
  · rw [if_pos h0] at hpv
    simp only [Option.some_inj] at hpv
    omega
  · rw [if_neg h0] at hpv
    by_cases hp : p < N ^ 2
    · rw [if_pos hp] at hpv
      simp at hpv
    · rw [if_neg hp] at hpv
      exact Option.noConfusion hpv

lemma initGrid_PairsAdj {N : Nat} (hN : 1 ≤ N) : PairsAdj N (initGrid N) := by
  intro t p q hpv hqv
  rw [initGrid_get hN] at hpv
  by_cases h0 : p = 0
  · rw [if_pos h0] at hpv
    simp only [Option.some_inj] at hpv
    omega
  · rw [if_neg h0] at hpv
    by_cases hp : p < N ^ 2
    · rw [if_pos hp] at hpv
      simp at hpv
    · rw [if_neg hp] at hpv
      exact Option.noConfusion hpv

lemma placements_nil_starved {N : Nat} {g : GridL} {turn : Nat} (hturn : turn ≠ 0)
    (hp : placements N g turn = []) : Starved N g := by
  intro i j w h hi hj hd hfree
  by_contra hok
  have hok' : okMove N g i j w h = true := by
    revert hok
    cases okMove N g i j w h <;> simp
  have hmem : ((i, j), (w, h)) ∈ placements N g turn :=
    mem_placements.mpr ⟨hi, hj, hfree, fun hc => hturn hc.1, hd, hok'⟩
  rw [hp] at hmem
  exact List.not_mem_nil _ hmem

lemma placements_init_ne_nil {N : Nat} (hN : 2 ≤ N) :
    placements N (initGrid N) 0 ≠ [] := by
  have hNN : N ^ 2 = N * N := by ring
  have hN2 : 4 ≤ N ^ 2 := by nlinarith
  have hN3 : N + 1 < N ^ 2 := by nlinarith
  have hfree1 : is_free N (initGrid N) 0 1 = true := by
    rw [is_free_iff]
    have hidx : N * 0 + 1 = 1 := by ring
    rw [hidx, initGrid_get (by omega) 1, if_neg (by omega), if_pos (by omega)]
  have hfree2 : is_free N (initGrid N) 1 1 = true := by
    rw [is_free_iff]
    have hidx : N * 1 + 1 = N + 1 := by ring
    rw [hidx, initGrid_get (by omega) (N + 1), if_neg (by omega), if_pos (by omega)]
  have h1 : ((0, 1), ((1 : Int), (0 : Int))) ∈ placements N (initGrid N) 0 := by
    rw [mem_placements]
    refine ⟨by omega, by omega, hfree1, fun hc => by omega, by decide, ?_⟩
    rw [okMove_iff]
    refine ⟨by omega, by omega, by omega, by omega, ?_⟩
    have ht1 : (((0 : Nat) : Int) + 1).toNat = 1 := by norm_num
    have ht2 : (((1 : Nat) : Int) + 0).toNat = 1 := by norm_num
    rw [ht1, ht2]
    exact hfree2
  exact List.ne_nil_of_mem h1

/-- The two possible shapes of a layout recorded from the initial grid:
either it carries the full budget of pairs, or it was recorded starved with
fewer pairs. -/
lemma enum_init_cases {N : Nat} {layout : GridL} (hN : 1 ≤ N)
    (hmem : layout ∈ enum N (initGrid N) 0) :
    countSome layout = 2 * N_TURNS N + 1 ∨
      (Starved N layout ∧ countSome layout < 2 * N_TURNS N + 1) := by
  have hmem' : layout ∈ enumFuel N (N_TURNS N - 0) (initGrid N) 0 := hmem
  rcases enumFuel_count hmem' rfl (by omega) (by rw [initGrid_count]) with
    hfull | ⟨k, hk0, hkN, hcnt, hpk, hkt⟩
  · exact Or.inl hfull
  · right
    refine ⟨?_, by omega⟩
    by_cases hk : k = 0
    · subst hk
      have hlay := hkt rfl
      have hN2 : 2 ≤ N := by
        by_contra hc
        have hone : N = 1 := by omega
        subst hone
        have : N_TURNS 1 = 0 := rfl
        omega
      rw [hlay] at hpk
      exact absurd hpk (placements_init_ne_nil hN2)
    · exact placements_nil_starved hk hpk

lemma countSome_eq_length {g : GridL} (h : countSome g = g.length) : ∀ c ∈ g, c ≠ none := by
  induction g with
  | nil => simp
  | cons x xs ih =>
    have hle : ((xs.filter fun o => o.isSome).length) ≤ xs.length :=
      List.length_filter_le _ _
    intro c hc
    cases x with
    | none =>
      exfalso
      simp only [countSome, List.filter_cons, Option.isSome_none, Bool.false_eq_true,
        if_false, List.length_cons] at h
      omega
    | some v =>
      simp only [countSome, List.filter_cons, Option.isSome_some, if_true,
        List.length_cons] at h
      rcases List.mem_cons.mp hc with hcx | hc'
      · rw [hcx]
        simp
      · refine ih ?_ c hc'
        simp only [countSome]
        omega

/-- C4: in every recorded layout, whenever cells hold the labels `2t+1` and
`2t+2` of some turn `t`, the two cells are inside the N by N grid and at
Manhattan distance exactly 1 (one step in one cardinal direction). -/
theorem enum_pairs_adjacent (N : Nat) (layout : GridL) (hN : 1 ≤ N)
    (hmem : layout ∈ enum N (initGrid N) 0) :
    ∀ (t p q : Nat), layout[p]? = some (some (2 * t + 1)) →
      layout[q]? = some (some (2 * t + 2)) →
      p < N ^ 2 ∧ q < N ^ 2 ∧ manhattan N p q = 1 := by
  have hmem' : layout ∈ enumFuel N (N_TURNS N - 0) (initGrid N) 0 := hmem
  have hinv := enumFuel_inv hmem' (by omega) (initGrid_LabelsLE hN) (initGrid_PairsAdj hN)
  have hlen : layout.length = N ^ 2 := by
    rw [enumFuel_length hmem', initGrid_length hN]
  intro t p q hpv hqv
  have hp := lt_length_of_getq hpv
  have hq := lt_length_of_getq hqv
  exact ⟨by omega, by omega, hinv.2 t p q hpv hqv⟩

theorem enum_pairs_adjacent_witness :
    ((1 ≤ 2 ∧ [some 0, some 1, none, some 2] ∈ enum 2 (initGrid 2) 0) ∧
        [some 0, some 1, none, some 2][1]? = some (some (2 * 0 + 1)) ∧
        [some 0, some 1, none, some 2][3]? = some (some (2 * 0 + 2))) ∧
      (1 < 2 ^ 2 ∧ 3 < 2 ^ 2 ∧ manhattan 2 1 3 = 1) :=
  ⟨⟨⟨by decide, by decide⟩, by decide, by decide⟩,
    enum_pairs_adjacent 2 [some 0, some 1, none, some 2] (by decide) (by decide)
      0 1 3 (by decide) (by decide)⟩

/-- C9: `enum` never overwrites an occupied cell: every label present on
the grid a call starts from is still present, at the same index, in every
layout the call records; in particular the seed label 0 sits at cell
`(0, 0)` in every layout recorded from the initial grid. -/
theorem enum_no_overwrite :
    (∀ (N fuel : Nat) (g : GridL) (turn : Nat) (layout : GridL),
        layout ∈ enumFuel N fuel g turn →
        ∀ (p v : Nat), g[p]? = some (some v) → layout[p]? = some (some v))
    ∧ (∀ (N : Nat) (layout : GridL), layout ∈ enum N (initGrid N) 0 →
        layout[0]? = some (some 0)) := by
  refine ⟨fun N fuel g turn layout hmem => enumFuel_persist hmem,
    fun N layout hmem => ?_⟩
  have hmem' : layout ∈ enumFuel N (N_TURNS N - 0) (initGrid N) 0 := hmem
  exact enumFuel_persist hmem' 0 0 (by simp [initGrid])

theorem enum_no_overwrite_witness :
    ([some 0, some 1, none, some 2] ∈ enum 2 (initGrid 2) 0) ∧
      [some 0, some 1, none, some 2][0]? = some (some 0) :=
  ⟨by decide, enum_no_overwrite.2 2 [some 0, some 1, none, some 2] (by decide)⟩

/-- C7: the search is total: below the turn budget the recursion always
terminates with at least one recorded leaf; the budget case records
exactly the current grid, the starved case records exactly the current
grid, and otherwise the output is precisely the concatenation of the
recursive calls over all placements, so every branch's leaves appear in
the output. -/
theorem enum_total :
    (∀ (N : Nat) (g : GridL) (turn : Nat), turn ≤ N_TURNS N → enum N g turn ≠ [])
    ∧ (∀ (N : Nat) (g : GridL), enum N g (N_TURNS N) = [g])
    ∧ (∀ (N : Nat) (g : GridL) (turn : Nat), turn < N_TURNS N →
        placements N g turn = [] → enum N g turn = [g])
    ∧ (∀ (N : Nat) (g : GridL) (turn : Nat), turn < N_TURNS N →
        placements N g turn ≠ [] →
        enum N g turn = (placements N g turn).flatMap fun pd =>
          enum N (place N g turn pd.1.1 pd.1.2 pd.2.1 pd.2.2) (turn + 1)) := by
  refine ⟨fun N g turn hle => enumFuel_ne_nil _ g turn rfl hle,
    fun N g => enumFuel_budget rfl,
    fun N g turn hlt hp => ?_, fun N g turn hlt hp => ?_⟩
  · have hfuel : N_TURNS N - turn = (N_TURNS N - (turn + 1)) + 1 := by omega
    rw [enum, hfuel, enumFuel_stuck (by omega) hp]
  · have hfuel : N_TURNS N - turn = (N_TURNS N - (turn + 1)) + 1 := by omega
    rw [enum, hfuel, enumFuel_step (by omega) hp]
    rfl

theorem enum_total_witness :
    (0 ≤ N_TURNS 2) ∧ enum 2 (initGrid 2) 0 ≠ [] :=
  ⟨by decide, enum_total.1 2 (initGrid 2) 0 (by decide)⟩

/-- C5: the turn budget is exactly `(N ^ 2 - 1) / 2`; a recorded layout
that is not a starvation record carries the full budget of label pairs
plus the seed cell, and when `N ^ 2` is odd such a layout has no empty
cell at all. -/
theorem enum_turn_budget :
    (∀ N : Nat, N_TURNS N = (N ^ 2 - 1) / 2)
    ∧ (∀ (N : Nat) (layout : GridL), 1 ≤ N → layout ∈ enum N (initGrid N) 0 →
        countSome layout = 2 * N_TURNS N + 1 ∨
          (Starved N layout ∧ countSome layout < 2 * N_TURNS N + 1))
    ∧ (∀ (N : Nat) (layout : GridL), 1 ≤ N → layout ∈ enum N (initGrid N) 0 →
        N ^ 2 % 2 = 1 → countSome layout = 2 * N_TURNS N + 1 →
        ∀ c ∈ layout, c ≠ none) := by
  refine ⟨fun N => rfl, fun N layout hN hmem => enum_init_cases hN hmem,
    fun N layout hN hmem hodd hcnt => ?_⟩
  have hmem' : layout ∈ enumFuel N (N_TURNS N - 0) (initGrid N) 0 := hmem
  have hlen : layout.length = N ^ 2 := by
    rw [enumFuel_length hmem', initGrid_length hN]
  apply countSome_eq_length
  rw [hcnt, hlen, N_TURNS]
  omega

theorem enum_turn_budget_witness :
    ((1 ≤ 2 ∧ [some 0, some 1, none, some 2] ∈ enum 2 (initGrid 2) 0) ∧
        (countSome [some 0, some 1, none, some 2] = 2 * N_TURNS 2 + 1 ∨
          (Starved 2 [some 0, some 1, none, some 2] ∧
            countSome [some 0, some 1, none, some 2] < 2 * N_TURNS 2 + 1)))
      ∧ (1 ≤ 3 ∧ [some 0, some 1, some 2, some 3, some 4, some 5, some 6, some 7, some 8]
            ∈ enum 3 [some 0, some 1, some 2, some 3, some 4, some 5, some 6, some 7, some 8]
              (N_TURNS 3) ∧ 3 ^ 2 % 2 = 1 ∧
          ∀ c ∈ [some (0 : Nat), some 1, some 2, some 3, some 4, some 5, some 6, some 7,
            some 8], c ≠ none) := by
  constructor
  · exact ⟨⟨by decide, by decide⟩,
      enum_turn_budget.2.1 2 [some 0, some 1, none, some 2] (by decide) (by decide)⟩
  · exact ⟨by decide, by decide, by decide, by decide⟩

/-- C10: a recorded layout whose occupancy shows it was not a full budget
recording was recorded by the stuck branch (the `found` flag false), which
below the budget only happens at a turn of at least 1, where no symmetry
skip is active; such a layout has no two cardinally adjacent empty cells:
every free cell's in-bounds cardinal neighbours are all occupied. -/
theorem enum_stuck_starved :
    (∀ (N : Nat) (g layout : GridL) (turn : Nat), 1 ≤ turn → turn ≤ N_TURNS N →
        countSome g = 2 * turn + 1 → layout ∈ enum N g turn →
        countSome layout ≠ 2 * N_TURNS N + 1 → Starved N layout)
    ∧ (∀ (N : Nat) (layout : GridL), 1 ≤ N → layout ∈ enum N (initGrid N) 0 →
        countSome layout ≠ 2 * N_TURNS N + 1 → Starved N layout) := by
  constructor
  · intro N g layout turn hturn hle hcnt hmem hnotfull
    have hmem' : layout ∈ enumFuel N (N_TURNS N - turn) g turn := hmem
    rcases enumFuel_count hmem' rfl hle hcnt with hfull | ⟨k, hk0, hkN, hkc, hpk, _⟩
    · exact absurd hfull hnotfull
    · exact placements_nil_starved (by omega) hpk
  · intro N layout hN hmem hnotfull
    rcases enum_init_cases hN hmem with hfull | ⟨hstarved, _⟩
    · exact absurd hfull hnotfull
    · exact hstarved

theorem enum_stuck_starved_witness :
    ((1 ≤ 3 ∧ 3 ≤ N_TURNS 3 ∧
        countSome [some 0, some 1, none, some 2, some 3, some 4, none, some 5, some 6]
          = 2 * 3 + 1 ∧
        [some 0, some 1, none, some 2, some 3, some 4, none, some 5, some 6]
          ∈ enum 3 [some 0, some 1, none, some 2, some 3, some 4, none, some 5, some 6] 3 ∧
        countSome [some 0, some 1, none, some 2, some 3, some 4, none, some 5, some 6]
          ≠ 2 * N_TURNS 3 + 1)) ∧
      Starved 3 [some 0, some 1, none, some 2, some 3, some 4, none, some 5, some 6] :=
  ⟨⟨by decide, by decide, by decide, by decide, by decide⟩,
    enum_stuck_starved.1 3
      [some 0, some 1, none, some 2, some 3, some 4, none, some 5, some 6]
      [some 0, some 1, none, some 2, some 3, some 4, none, some 5, some 6] 3
      (by decide) (by decide) (by decide) (by decide) (by decide)⟩

/-- One token per cell of `' '.join('_' if i is None else str(i) for i in
layout)`: `'_'` for an empty cell, the decimal label otherwise. -/
def layoutTokens (g : GridL) : List String :=
  g.map fun c =>
    match c with
    | none => "_"
    | some v => toString v

/-- The full line written for one layout (`f.write(f"{code}\n")` appends
one such line per layout). -/
def layoutLine (g : GridL) : String :=
  String.intercalate " " (layoutTokens g)

/-- C8 counterexample: already the first recorded layout for `N = 2`
serializes its seed cell as the token "0", which is neither the
placeholder nor the decimal form of a label in `1..N^2-1`. -/
theorem layout_tokens_cex :
    [some 0, some 1, none, some 2] ∈ enum 2 (initGrid 2) 0 ∧
      "0" ∈ layoutTokens [some 0, some 1, none, some 2] ∧
      ¬("0" = "_" ∨ ∃ v, 1 ≤ v ∧ v ≤ 2 ^ 2 - 1 ∧ "0" = toString v) := by
  refine ⟨by decide, by decide, ?_⟩
  rintro (h | ⟨v, h1, h2, h3⟩)
  · exact absurd h (by decide)
  · have h2' : v ≤ 3 := by omega
    interval_cases v <;> exact absurd h3 (by decide)

/-- C8 (amended): each serialized layout has exactly `N ^ 2` space
separated tokens in row-major order, and every token is either the
placeholder `'_'` or the decimal form of a label in `0..N^2-1` — the range
includes 0 because the seed cell's label 0 is serialized like any other
label. -/
theorem layout_tokens_amended (N : Nat) (layout : GridL) (hN : 1 ≤ N)
    (hmem : layout ∈ enum N (initGrid N) 0) :
    (layoutTokens layout).length = N ^ 2 ∧
      ∀ tok ∈ layoutTokens layout, tok = "_" ∨ ∃ v, v ≤ N ^ 2 - 1 ∧ tok = toString v := by
  have hmem' : layout ∈ enumFuel N (N_TURNS N - 0) (initGrid N) 0 := hmem
  have hlen : layout.length = N ^ 2 := by
    rw [enumFuel_length hmem', initGrid_length hN]
  have hinv := enumFuel_inv hmem' (by omega) (initGrid_LabelsLE hN) (initGrid_PairsAdj hN)
  refine ⟨by simp [layoutTokens, hlen], ?_⟩
  intro tok htok
  simp only [layoutTokens, List.mem_map] at htok
  obtain ⟨c, hc, rfl⟩ := htok
  cases c with
  | none => exact Or.inl rfl
  | some v =>
    refine Or.inr ⟨v, ?_, rfl⟩
    obtain ⟨p, hp⟩ := List.mem_iff_getElem?.mp hc
    have hv := hinv.1 p v hp
    have hx : N_TURNS N = (N ^ 2 - 1) / 2 := rfl
    have h1 : 1 ≤ N ^ 2 := Nat.one_le_pow 2 N (by omega)
    omega

theorem layout_tokens_amended_witness :
    (1 ≤ 2 ∧ [some 0, some 1, none, some 2] ∈ enum 2 (initGrid 2) 0) ∧
      ((layoutTokens [some 0, some 1, none, some 2]).length = 2 ^ 2 ∧
        ∀ tok ∈ layoutTokens [some 0, some 1, none, some 2],
          tok = "_" ∨ ∃ v, v ≤ 2 ^ 2 - 1 ∧ tok = toString v) :=
  ⟨⟨by decide, by decide⟩,
    layout_tokens_amended 2 [some 0, some 1, none, some 2] (by decide) (by decide)⟩

/-! The comparison search "without the reduction", following the spec's
description of enumerating with the turn-0 symmetry skip removed, and the
diagonal reflection it is compared under. -/

/-- The placement list with the turn-0 symmetry skip removed (it is the
only turn-dependent guard, so the turn argument disappears). -/
def placementsFull (N : Nat) (g : GridL) : List ((Nat × Nat) × (Int × Int)) :=
  (cells N).flatMap fun c =>
    if is_free N g c.1 c.2 = false then []
    else dirs.filterMap fun d => if okMove N g c.1 c.2 d.1 d.2 then some (c, d) else none

/-- `enumFuel` with the turn-0 symmetry skip removed. -/
def enumFullFuel (N : Nat) : Nat → GridL → Nat → List GridL
  | 0, g, turn => if turn = N_TURNS N then [g] else []
  | fuel' + 1, g, turn =>
    if turn = N_TURNS N then [g]
    else
      if placementsFull N g = [] then [g]
      else (placementsFull N g).flatMap fun pd =>
        enumFullFuel N fuel' (place N g turn pd.1.1 pd.1.2 pd.2.1 pd.2.2) (turn + 1)

/-- The unreduced search. -/
def enumFull (N : Nat) (g : GridL) (turn : Nat) : List GridL :=
  enumFullFuel N (N_TURNS N - turn) g turn

/-- Reflection of a linear cell index across the main diagonal:
`(i, j) ↦ (j, i)`. -/
def reflectPos (N p : Nat) : Nat := N * (p % N) + p / N

/-- Reflection of a grid across the main diagonal. -/
def reflectG (N : Nat) (g : GridL) : GridL :=
  (List.range (N ^ 2)).map fun p => (g[reflectPos N p]?).getD none

lemma enumFullFuel_budget {N : Nat} {fuel : Nat} {g : GridL} {turn : Nat}
    (h : turn = N_TURNS N) : enumFullFuel N fuel g turn = [g] := by
  cases fuel with
  | zero => rw [enumFullFuel, if_pos h]
  | succ fuel' => rw [enumFullFuel, if_pos h]

lemma enumFullFuel_stuck {N : Nat} {fuel : Nat} {g : GridL} {turn : Nat}
    (h : turn ≠ N_TURNS N) (hp : placementsFull N g = []) :
    enumFullFuel N (fuel + 1) g turn = [g] := by
  rw [enumFullFuel, if_neg h, if_pos hp]

lemma enumFullFuel_step {N : Nat} {fuel : Nat} {g : GridL} {turn : Nat}
    (h : turn ≠ N_TURNS N) (hp : placementsFull N g ≠ []) :
    enumFullFuel N (fuel + 1) g turn =
      (placementsFull N g).flatMap fun pd =>
        enumFullFuel N fuel (place N g turn pd.1.1 pd.1.2 pd.2.1 pd.2.2) (turn + 1) := by
  rw [enumFullFuel, if_neg h, if_neg hp]

/-- Membership in the unreduced placement list. -/
lemma mem_placementsFull {N : Nat} {g : GridL} {i j : Nat} {w h : Int} :
    ((i, j), (w, h)) ∈ placementsFull N g ↔
      i < N ∧ j < N ∧ is_free N g i j = true ∧ (w, h) ∈ dirs ∧
        okMove N g i j w h = true := by
  simp only [placementsFull, List.mem_flatMap, List.mem_ite_nil_left, List.mem_filterMap,
    Option.ite_none_right_eq_some, Option.some_inj]
  constructor
  · rintro ⟨c, hc, hfree, d, hd, hok, hcd⟩
    cases hcd
    rw [mem_cells] at hc
    refine ⟨hc.1, hc.2, ?_, hd, hok⟩
    revert hfree
    cases is_free N g i j <;> simp
  · rintro ⟨hi, hj, hfree, hd, hok⟩
    exact ⟨(i, j), mem_cells.mpr ⟨hi, hj⟩, by simp [hfree], (w, h), hd, hok, rfl⟩

/-- From turn 1 on, the symmetry skip is inactive: the reduced and
unreduced placement lists agree. -/
lemma placements_pos_eq_full {N : Nat} {g : GridL} {turn : Nat} (h : turn ≠ 0) :
    placements N g turn = placementsFull N g := by
  unfold placements placementsFull
  congr 1
  funext c
  by_cases hf : is_free N g c.1 c.2 = false
  · rw [if_pos hf, if_pos hf]
  · rw [if_neg hf, if_neg hf, if_neg fun hc => h hc.1]

/-- From turn 1 on, the reduced and unreduced searches coincide on every
grid. -/
lemma enumFuel_pos_eq_full {N : Nat} : ∀ (fuel : Nat) (g : GridL) (turn : Nat), 1 ≤ turn →
    enumFuel N fuel g turn = enumFullFuel N fuel g turn := by
  intro fuel
  induction fuel with
  | zero =>
    intro g turn hpos
    rw [enumFuel, enumFullFuel]
  | succ fuel ih =>
    intro g turn hpos
    rw [enumFuel, enumFullFuel, placements_pos_eq_full (show turn ≠ 0 by omega)]
    have hfun :
        (fun pd : (Nat × Nat) × (Int × Int) =>
          enumFuel N fuel (place N g turn pd.1.1 pd.1.2 pd.2.1 pd.2.2) (turn + 1))
        = fun pd : (Nat × Nat) × (Int × Int) =>
          enumFullFuel N fuel (place N g turn pd.1.1 pd.1.2 pd.2.1 pd.2.2) (turn + 1) :=
      funext fun pd =>
        ih (place N g turn pd.1.1 pd.1.2 pd.2.1 pd.2.2) (turn + 1) (by omega)
    rw [hfun]

lemma reflectG_length {N : Nat} (g : GridL) : (reflectG N g).length = N ^ 2 := by
  simp [reflectG]

lemma reflectG_get {N : Nat} {g : GridL} (hg : g.length = N ^ 2) {i j : Nat}
    (hi : i < N) (hj : j < N) : (reflectG N g)[N * i + j]? = g[N * j + i]? := by
  have hlt : N * i + j < N ^ 2 := encode_lt hi hj
  have hlt2 : N * j + i < N ^ 2 := encode_lt hj hi
  rw [reflectG, List.getElem?_map, List.getElem?_range hlt]
  simp only [Option.map_some']
  rw [reflectPos, encode_mod N i j hj, encode_div N i j hj]
  rw [List.getElem?_eq_getElem (show N * j + i < g.length by omega)]
  rfl

lemma reflect_init {N : Nat} (hN : 1 ≤ N) : reflectG N (initGrid N) = initGrid N := by
  apply List.ext_getElem?
  intro p
  by_cases hp : p < N ^ 2
  · have hdiv : p / N < N := by
      have h2 : N ^ 2 = N * N := by ring
      exact (Nat.div_lt_iff_lt_mul (by omega)).mpr (by omega)
    have hmod : p % N < N := Nat.mod_lt _ (by omega)
    have hrlt : reflectPos N p < N ^ 2 := by
      rw [reflectPos]
      exact encode_lt hmod hdiv
    rw [reflectG, List.getElem?_map, List.getElem?_range hp]
    simp only [Option.map_some']
    rw [initGrid_get hN (reflectPos N p), initGrid_get hN p]
    by_cases h0 : p = 0
    · subst h0
      have : reflectPos N 0 = 0 := by
        rw [reflectPos]
        simp
      rw [this]
      simp
    · have hr0 : reflectPos N p ≠ 0 := by
        intro hc
        rw [reflectPos] at hc
        have h0' : (0 : Nat) = N * 0 + 0 := by ring
        obtain ⟨h1, h2⟩ := encode_inj hdiv (by omega) (hc.trans h0')
        have h3 : N * (p / N) = 0 := by
          rw [h2]
          ring
        have hdm := Nat.div_add_mod p N
        omega
      rw [if_neg hr0, if_pos hrlt, if_neg h0, if_pos hp]
      rfl
  · have h1 : (reflectG N (initGrid N)).length ≤ p := by
      rw [reflectG_length]
      omega
    have h2 : (initGrid N).length ≤ p := by
      rw [initGrid_length hN]
      omega
    rw [List.getElem?_eq_none h1, List.getElem?_eq_none h2]

lemma dirs_swap {w h : Int} (hd : (w, h) ∈ dirs) : (h, w) ∈ dirs := by
  rcases dirs_cases hd with ⟨rfl, rfl⟩ | ⟨rfl, rfl⟩ | ⟨rfl, rfl⟩ | ⟨rfl, rfl⟩ <;> decide

lemma is_free_reflect {N : Nat} {g : GridL} (hg : g.length = N ^ 2) {i j : Nat}
    (hi : i < N) (hj : j < N) :
    (is_free N (reflectG N g) i j = true) ↔ (is_free N g j i = true) := by
  rw [is_free_iff, is_free_iff, reflectG_get hg hi hj]

lemma okMove_reflect {N : Nat} {g : GridL} (hg : g.length = N ^ 2) {i j : Nat} {w h : Int}
    (hi : i < N) (hj : j < N) :
    (okMove N (reflectG N g) j i h w = true) ↔ (okMove N g i j w h = true) := by
  rw [okMove_iff, okMove_iff]
  constructor
  · rintro ⟨a1, a2, a3, a4, a5⟩
    refine ⟨a3, a4, a1, a2, ?_⟩
    rw [is_free_reflect hg (show ((j : Int) + h).toNat < N by omega)
      (show ((i : Int) + w).toNat < N by omega)] at a5
    exact a5
  · rintro ⟨a1, a2, a3, a4, a5⟩
    refine ⟨a3, a4, a1, a2, ?_⟩
    rw [is_free_reflect hg (show ((j : Int) + h).toNat < N by omega)
      (show ((i : Int) + w).toNat < N by omega)]
    exact a5

lemma mem_placementsFull_reflect {N : Nat} {g : GridL} (hg : g.length = N ^ 2)
    {i j : Nat} {w h : Int} :
    (((j, i), (h, w)) ∈ placementsFull N (reflectG N g)) ↔
      (((i, j), (w, h)) ∈ placementsFull N g) := by
  rw [mem_placementsFull, mem_placementsFull]
  constructor
  · rintro ⟨hj, hi, hfree, hd, hok⟩
    exact ⟨hi, hj, (is_free_reflect hg hj hi).mp hfree, dirs_swap hd,
      (okMove_reflect hg hi hj).mp hok⟩
  · rintro ⟨hi, hj, hfree, hd, hok⟩
    exact ⟨hj, hi, (is_free_reflect hg hj hi).mpr hfree, dirs_swap hd,
      (okMove_reflect hg hi hj).mpr hok⟩

lemma place_reflect {N : Nat} {g : GridL} {turn i j : Nat} {w h : Int}
    (hg : g.length = N ^ 2) (hi : i < N) (hj : j < N) (hd : (w, h) ∈ dirs)
    (hfree : is_free N g i j = true) (hok : okMove N g i j w h = true) :
    reflectG N (place N g turn i j w h) = place N (reflectG N g) turn j i h w := by
  have hfree' : is_free N (reflectG N g) j i = true := (is_free_reflect hg hj hi).mpr hfree
  have hok2 : okMove N (reflectG N g) j i h w = true := (okMove_reflect hg hi hj).mpr hok
  obtain ⟨hti, htj, hne1, hp1, hp2, hpo, _, _⟩ := place_spec hi hj hd hfree hok
  obtain ⟨hti2, htj2, hne2, hq1, hq2, hqo, _, _⟩ :=
    place_spec hj hi (dirs_swap hd) hfree' hok2
  apply List.ext_getElem?
  intro q
  by_cases hq : q < N ^ 2
  · obtain ⟨a, b, ha, hb, rfl⟩ : ∃ a b, a < N ∧ b < N ∧ q = N * a + b := by
      have h2 : N ^ 2 = N * N := by ring
      have hdm := Nat.div_add_mod q N
      refine ⟨q / N, q % N, (Nat.div_lt_iff_lt_mul (by omega)).mpr (by omega),
        Nat.mod_lt _ (by omega), by omega⟩
    have hL : (reflectG N (place N g turn i j w h))[N * a + b]? =
        (place N g turn i j w h)[N * b + a]? :=
      reflectG_get (by rw [place_length, hg]) ha hb
    rw [hL]
    by_cases hcase1 : b = i ∧ a = j
    · obtain ⟨rfl, rfl⟩ := hcase1
      rw [hp1, hq1]
    · by_cases hcase2 : b = ((i : Int) + w).toNat ∧ a = ((j : Int) + h).toNat
      · obtain ⟨rfl, rfl⟩ := hcase2
        rw [hp2, hq2]
      · have hne1' : N * b + a ≠ N * i + j := fun hc => hcase1 (encode_inj ha hj hc)
        have hne2' : N * b + a ≠ N * ((i : Int) + w).toNat + ((j : Int) + h).toNat :=
          fun hc => hcase2 (encode_inj ha htj hc)
        have hR1 : N * a + b ≠ N * j + i := by
          intro hc
          obtain ⟨h1, h2⟩ := encode_inj hb hi hc
          exact hcase1 ⟨h2, h1⟩
        have hR2 : N * a + b ≠ N * ((j : Int) + h).toNat + ((i : Int) + w).toNat := by
          intro hc
          obtain ⟨h1, h2⟩ := encode_inj hb hti hc
          exact hcase2 ⟨h2, h1⟩
        rw [hpo _ hne1' hne2', hqo _ hR1 hR2]
        exact (reflectG_get hg ha hb).symm
  · have e1 : (reflectG N (place N g turn i j w h)).length ≤ q := by
      rw [reflectG_length]
      omega
    have e2 : (place N (reflectG N g) turn j i h w).length ≤ q := by
      rw [place_length, reflectG_length]
      omega
    rw [List.getElem?_eq_none e1, List.getElem?_eq_none e2]

/-- Reflecting a grid across the main diagonal is a symmetry of the
unreduced search: reflections of recorded layouts are exactly the layouts
recorded from the reflected grid. -/
lemma enumFullFuel_reflect {N : Nat} : ∀ (fuel : Nat) (g layout : GridL) (turn : Nat),
    g.length = N ^ 2 → layout ∈ enumFullFuel N fuel g turn →
    reflectG N layout ∈ enumFullFuel N fuel (reflectG N g) turn := by
  intro fuel
  induction fuel with
  | zero =>
    intro g layout turn hg hmem
    rw [enumFullFuel] at hmem ⊢
    by_cases hT : turn = N_TURNS N
    · rw [if_pos hT] at hmem ⊢
      rw [List.mem_singleton] at hmem
      subst hmem
      exact List.mem_singleton.mpr rfl
    · rw [if_neg hT] at hmem
      exact absurd hmem (List.not_mem_nil _)
  | succ fuel ih =>
    intro g layout turn hg hmem
    by_cases hT : turn = N_TURNS N
    · rw [enumFullFuel_budget hT] at hmem ⊢
      rw [List.mem_singleton] at hmem
      subst hmem
      exact List.mem_singleton.mpr rfl
    · by_cases hp : placementsFull N g = []
      · rw [enumFullFuel_stuck hT hp] at hmem
        rw [List.mem_singleton] at hmem
        rw [hmem]
        have hpr : placementsFull N (reflectG N g) = [] := by
          by_contra hne
          obtain ⟨pd, hpd⟩ := List.exists_mem_of_ne_nil _ hne
          obtain ⟨⟨a, b⟩, c, d⟩ := pd
          have hmem2 := (mem_placementsFull_reflect hg).mp hpd
          rw [hp] at hmem2
          exact List.not_mem_nil _ hmem2
        rw [enumFullFuel_stuck hT hpr]
        exact List.mem_singleton.mpr rfl
      · rw [enumFullFuel_step hT hp] at hmem
        obtain ⟨pd, hpd, hsub⟩ := List.mem_flatMap.mp hmem
        obtain ⟨⟨i, j⟩, w, h⟩ := pd
        have hpd' := hpd
        rw [mem_placementsFull] at hpd'
        obtain ⟨hi, hj, hfree, hd, hok⟩ := hpd'
        have hrsub := ih (place N g turn i j w h) layout (turn + 1)
          (by rw [place_length, hg]) hsub
        rw [place_reflect hg hi hj hd hfree hok] at hrsub
        have hpdr : ((j, i), (h, w)) ∈ placementsFull N (reflectG N g) :=
          (mem_placementsFull_reflect hg).mpr hpd
        rw [enumFullFuel_step hT (List.ne_nil_of_mem hpdr)]
        exact List.mem_flatMap.mpr ⟨((j, i), (h, w)), hpdr, hrsub⟩

/-- C6: the symmetry reduction is applied at turn 0 only — from turn 1 on
the reduced and the unreduced search coincide on every grid — and it loses
no outcome: every layout of the unreduced search from the initial grid is,
either itself or after diagonal reflection, a layout of the reduced
search. -/
theorem enum_symmetry :
    (∀ (N fuel : Nat) (g : GridL) (turn : Nat), 1 ≤ turn →
        enumFuel N fuel g turn = enumFullFuel N fuel g turn)
    ∧ (∀ (N : Nat) (layout : GridL), 1 ≤ N → layout ∈ enumFull N (initGrid N) 0 →
        layout ∈ enum N (initGrid N) 0 ∨ reflectG N layout ∈ enum N (initGrid N) 0) := by
  refine ⟨fun N fuel g turn hpos => enumFuel_pos_eq_full fuel g turn hpos,
    fun N layout hN hmem => ?_⟩
  have hglen : (initGrid N).length = N ^ 2 := initGrid_length hN
  have hmem' : layout ∈ enumFullFuel N (N_TURNS N - 0) (initGrid N) 0 := hmem
  by_cases hT : (0 : Nat) = N_TURNS N
  · rw [enumFullFuel_budget hT] at hmem'
    rw [List.mem_singleton] at hmem'
    subst hmem'
    left
    rw [enum, enumFuel_budget hT]
    exact List.mem_singleton.mpr rfl
  · have hpos : 1 ≤ N_TURNS N := by omega
    obtain ⟨f, hf⟩ : ∃ f, N_TURNS N - 0 = f + 1 := ⟨N_TURNS N - 1, by omega⟩
    rw [hf] at hmem'
    by_cases hp : placementsFull N (initGrid N) = []
    · rw [enumFullFuel_stuck (by omega) hp] at hmem'
      rw [List.mem_singleton] at hmem'
      subst hmem'
      left
      have hps : placements N (initGrid N) 0 = [] := by
        by_contra hne
        obtain ⟨pd, hpd⟩ := List.exists_mem_of_ne_nil _ hne
        obtain ⟨⟨i, j⟩, w, h⟩ := pd
        rw [mem_placements] at hpd
        have hmem2 : ((i, j), (w, h)) ∈ placementsFull N (initGrid N) :=
          mem_placementsFull.mpr ⟨hpd.1, hpd.2.1, hpd.2.2.1, hpd.2.2.2.2.1, hpd.2.2.2.2.2⟩
        rw [hp] at hmem2
        exact List.not_mem_nil _ hmem2
      rw [enum, hf, enumFuel_stuck (by omega) hps]
      exact List.mem_singleton.mpr rfl
    · rw [enumFullFuel_step (by omega) hp] at hmem'
      obtain ⟨pd, hpd, hsub⟩ := List.mem_flatMap.mp hmem'
      obtain ⟨⟨i, j⟩, w, h⟩ := pd
      rw [mem_placementsFull] at hpd
      obtain ⟨hi, hj, hfree, hd, hok⟩ := hpd
      by_cases hij : j < i
      · right
        have hrsub := enumFullFuel_reflect f (place N (initGrid N) 0 i j w h) layout 1
          (by rw [place_length, hglen]) hsub
        rw [place_reflect hglen hi hj hd hfree hok, reflect_init hN] at hrsub
        rw [← enumFuel_pos_eq_full f _ 1 (by omega)] at hrsub
        have hfree2 : is_free N (initGrid N) j i = true := by
          have hif := is_free_reflect hglen hj hi
          rw [reflect_init hN] at hif
          exact hif.mpr hfree
        have hok2 : okMove N (initGrid N) j i h w = true := by
          have hkm := @okMove_reflect N (initGrid N) hglen i j w h hi hj
          rw [reflect_init hN] at hkm
          exact hkm.mpr hok
        have hpd' : ((j, i), (h, w)) ∈ placements N (initGrid N) 0 :=
          mem_placements.mpr ⟨hj, hi, hfree2, fun hc => by omega, dirs_swap hd, hok2⟩
        rw [enum, hf, enumFuel_step (by omega) (List.ne_nil_of_mem hpd')]
        exact List.mem_flatMap.mpr ⟨((j, i), (h, w)), hpd', hrsub⟩
      · left
        have hpd' : ((i, j), (w, h)) ∈ placements N (initGrid N) 0 :=
          mem_placements.mpr ⟨hi, hj, hfree, fun hc => hij hc.2, hd, hok⟩
        have hsub' : layout ∈ enumFuel N f (place N (initGrid N) 0 i j w h) 1 := by
          rw [enumFuel_pos_eq_full f _ 1 (by omega)]
          exact hsub
        rw [enum, hf, enumFuel_step (by omega) (List.ne_nil_of_mem hpd')]
        exact List.mem_flatMap.mpr ⟨((i, j), (w, h)), hpd', hsub'⟩

theorem enum_symmetry_witness :
    (1 ≤ 2 ∧ [some 0, none, some 1, some 2] ∈ enumFull 2 (initGrid 2) 0) ∧
      ([some 0, none, some 1, some 2] ∈ enum 2 (initGrid 2) 0 ∨
        reflectG 2 [some 0, none, some 1, some 2] ∈ enum 2 (initGrid 2) 0) :=
  ⟨⟨by decide, by decide⟩,
    enum_symmetry.2 2 [some 0, none, some 1, some 2] (by decide) (by decide)⟩
